import Mathlib

set_option maxHeartbeats 1000000

namespace AskMyDocs

/-!
Shallow embedding of the AskMyDocs backend (src/backend/server.py,
src/backend/lightweight_embeddings.py, src/backend/database.py).

Modelling conventions:
* Python floats are modelled as exact reals (`ℝ`); stored vector entries as `ℚ`.
* Python `str.split()` (split on whitespace runs, dropping empties) is `pySplit`.
* `numpy.argsort` is modelled as a stable ascending sort on (index, value) pairs,
  which is what numpy's sort performs on the small arrays this code produces.
* Python's stable `list.sort` (optionally `reverse=True`) is modelled with
  `List.insertionSort`, which inserts earlier elements in front of later equal
  ones and is therefore stable in the same sense.
* Exceptions that the Python code catches (`try`/`except` driving the
  fallback paths) are modelled with `Except`.
* External collaborators (sklearn's TfidfVectorizer, the Gemini completion
  call, the sqlite store and the stdlib JSON codec) are modelled at their
  interface: an abstract `Vectorizer`, an `llm` function argument, an
  in-memory row list, and a structured `JsonVal` payload.
-/

/-- Python `str.split()` on a character list: split on runs of whitespace and
drop empty tokens.  `acc` holds the characters of the in-progress token in
reverse order. -/
def pySplitChars : List Char → List Char → List (List Char)
  | [], acc => if acc.isEmpty then [] else [acc.reverse]
  | c :: cs, acc =>
    if c.isWhitespace then
      if acc.isEmpty then pySplitChars cs [] else acc.reverse :: pySplitChars cs []
    else pySplitChars cs (c :: acc)

/-- Python `text.split()` for strings. -/
def pySplit (s : String) : List String :=
  (pySplitChars s.toList []).map (fun l => String.mk l)

/-- Python `' '.join(words)` at the character-list level. -/
def joinSpChars : List (List Char) → List Char
  | [] => []
  | [w] => w
  | w :: w2 :: ws => w ++ ' ' :: joinSpChars (w2 :: ws)

/-- Python `' '.join(words)` for strings. -/
def joinSp (ws : List String) : String :=
  String.mk (joinSpChars (ws.map String.toList))

/-- Loop body of `chunk_text` (server.py): accumulate words into
`current_chunk`, emitting a joined chunk whenever the running size
(word lengths plus one separator each) reaches `chunk_size`, and emitting
any non-empty final buffer at the end. -/
def chunkLoop (chunk_size : Nat) : List String → List String → Nat → List String
  | [], current_chunk, _ =>
    if current_chunk.isEmpty then [] else [joinSp current_chunk]
  | w :: ws, current_chunk, current_size =>
    let cur := current_chunk ++ [w]
    let size := current_size + (w.length + 1)
    if chunk_size ≤ size then joinSp cur :: chunkLoop chunk_size ws [] 0
    else chunkLoop chunk_size ws cur size

/-- `chunk_text(text, chunk_size)` from server.py. -/
def chunk_text (text : String) (chunk_size : Nat) : List String :=
  chunkLoop chunk_size (pySplit text) [] 0

section Ranking

variable {α : Type} [LinearOrder α]

/-- Ascending comparison on the value component of an (index, score) pair. -/
def sndLe (p q : Nat × α) : Prop := p.2 ≤ q.2

/-- Descending comparison on the value component of an (index, score) pair. -/
def sndGe (p q : Nat × α) : Prop := q.2 ≤ p.2

/-- Strict lexicographic order: ascending score, ties by ascending index.
A stable ascending sort of an index-tagged list is sorted by this order. -/
def keyLe (p q : Nat × α) : Prop := p.2 < q.2 ∨ (p.2 = q.2 ∧ p.1 ≤ q.1)

/-- Descending score with ties by descending index: the order produced by
reversing a stable ascending sort. -/
def keyGd (p q : Nat × α) : Prop := q.2 < p.2 ∨ (p.2 = q.2 ∧ q.1 ≤ p.1)

/-- Descending score with ties by ascending index: the order a stable sort on
negated score would give. -/
def keyNg (p q : Nat × α) : Prop := q.2 < p.2 ∨ (p.2 = q.2 ∧ p.1 ≤ q.1)

instance : DecidableRel (sndLe : Nat × α → Nat × α → Prop) :=
  fun p q => inferInstanceAs (Decidable (p.2 ≤ q.2))

instance : DecidableRel (sndGe : Nat × α → Nat × α → Prop) :=
  fun p q => inferInstanceAs (Decidable (q.2 ≤ p.2))

instance : DecidableRel (keyGd : Nat × α → Nat × α → Prop) :=
  fun p q => inferInstanceAs (Decidable (q.2 < p.2 ∨ (p.2 = q.2 ∧ q.1 ≤ p.1)))

instance : DecidableRel (keyNg : Nat × α → Nat × α → Prop) :=
  fun p q => inferInstanceAs (Decidable (q.2 < p.2 ∨ (p.2 = q.2 ∧ p.1 ≤ q.1)))

instance : IsTotal (Nat × α) sndLe := ⟨fun p q => le_total p.2 q.2⟩

instance : IsTrans (Nat × α) sndLe := ⟨fun _ _ _ h h2 => le_trans h h2⟩

instance : IsTotal (Nat × α) sndGe := ⟨fun p q => le_total q.2 p.2⟩

instance : IsTrans (Nat × α) sndGe := ⟨fun _ _ _ h h2 => le_trans h2 h⟩

instance : IsTotal (Nat × α) keyGd := by
  refine ⟨fun p q => ?_⟩
  rcases lt_trichotomy p.2 q.2 with h | h | h
  · exact Or.inr (Or.inl h)
  · rcases le_total q.1 p.1 with h2 | h2
    · exact Or.inl (Or.inr ⟨h, h2⟩)
    · exact Or.inr (Or.inr ⟨h.symm, h2⟩)
  · exact Or.inl (Or.inl h)

instance : IsTrans (Nat × α) keyGd := by
  refine ⟨fun p q r h1 h2 => ?_⟩
  rcases h1 with h1 | ⟨h1e, h1i⟩
  · rcases h2 with h2 | ⟨h2e, h2i⟩
    · exact Or.inl (lt_trans h2 h1)
    · exact Or.inl (lt_of_le_of_lt (le_of_eq h2e.symm) h1)
  · rcases h2 with h2 | ⟨h2e, h2i⟩
    · exact Or.inl (lt_of_lt_of_le h2 (le_of_eq h1e.symm))
    · exact Or.inr ⟨h1e.trans h2e, le_trans h2i h1i⟩

instance : IsAntisymm (Nat × α) keyGd := by
  refine ⟨fun p q h1 h2 => ?_⟩
  rcases h1 with h1 | ⟨h1e, h1i⟩
  · rcases h2 with h2 | ⟨h2e, h2i⟩
    · exact absurd h1 (lt_asymm h2)
    · exact absurd h1 (by simp [h2e])
  · rcases h2 with h2 | ⟨h2e, h2i⟩
    · exact absurd h2 (by simp [h1e])
    · exact Prod.ext (le_antisymm h2i h1i) h1e

/-- Python slice `l[-k:]`; note that `l[-0:]` is the whole list. -/
def pyLastSlice (k : Nat) (l : List β) : List β :=
  if k = 0 then l else (l.reverse.take k).reverse

/-- `np.argsort(similarities)` keeping the values: a stable ascending sort of
the enumerated similarity list. -/
def enumSort (sims : List α) : List (Nat × α) :=
  List.insertionSort sndLe sims.enum

/-- `np.argsort(similarities)[-top_k:][::-1]` keeping the values. -/
def pySelect (sims : List α) (k : Nat) : List (Nat × α) :=
  (pyLastSlice k (enumSort sims)).reverse

/-- Selection described by descending score with ties by descending original
index, truncated to `k`. -/
def selTopDesc (sims : List α) (k : Nat) : List (Nat × α) :=
  (List.insertionSort keyGd sims.enum).take k

/-- Selection the claim describes: a stable sort on negated score
(descending score, ties by ascending original index), truncated to `k`. -/
def selTopStableNeg (sims : List α) (k : Nat) : List (Nat × α) :=
  (List.insertionSort keyNg sims.enum).take k

end Ranking

/-- A relevance hit as built by `find_relevant_chunks` /
`_simple_keyword_search` (a dict in the Python source). -/
structure RHit where
  chunk_index : Nat
  content : String
  relevance_score : ℝ

/-- Dot product of two vectors, zipping componentwise like numpy does on
equal-length vectors. -/
def dotQ (a b : List ℚ) : ℚ := (List.zipWith (fun x y => x * y) a b).sum

/-- `sklearn.metrics.pairwise.cosine_similarity([a], [b])[0][0]` on
equal-length vectors, with sklearn's convention that a zero vector yields
similarity 0 (in Lean, division by zero is zero). -/
noncomputable def cosineSim (a b : List ℚ) : ℝ :=
  ((dotQ a b : ℚ) : ℝ) / (Real.sqrt ((dotQ a a : ℚ) : ℝ) * Real.sqrt ((dotQ b b : ℚ) : ℝ))

/-- The similarity loop of `find_relevant_chunks`: one cosine similarity per
document embedding.  `cosine_similarity` raises (caught by the enclosing
`try`) when the query vector is empty or a document vector has a different
dimension. -/
noncomputable def computeSims (qv : List ℚ) : List (List ℚ) → Except Unit (List ℝ)
  | [] => .ok []
  | e :: es =>
    if qv.length = 0 ∨ e.length ≠ qv.length then .error ()
    else (computeSims qv es).map (fun ss => cosineSim qv e :: ss)

/-- The result loop of `find_relevant_chunks`: walk the selected
(index, similarity) pairs in order, keep those with similarity above 0.1,
and read the chunk text at each kept index; an out-of-range index raises
(caught by the enclosing `try`). -/
noncomputable def buildHits (chunks : List String) : List (Nat × ℝ) → Except Unit (List RHit)
  | [] => .ok []
  | p :: ps =>
    if (1:ℝ)/10 < p.2 then
      match chunks[p.1]? with
      | some c => (buildHits chunks ps).map (fun r => ⟨p.1, c, p.2⟩ :: r)
      | none => .error ()
    else buildHits chunks ps

/-- Per-chunk score of `_simple_keyword_search`:
`len(query_words & chunk_words) / len(query_words) if query_words else 0`. -/
def keywordScore (query_words : Finset String) (chunk : String) : ℚ :=
  if query_words = ∅ then 0
  else ((query_words ∩ (pySplit chunk.toLower).toFinset).card : ℚ) / (query_words.card : ℚ)

/-- `_simple_keyword_search(query, chunks, top_k)` from
lightweight_embeddings.py: score every chunk by lowercase word overlap,
stable-sort descending by score, truncate to `top_k`, and keep strictly
positive scores. -/
def simple_keyword_search (query : String) (chunks : List String) (top_k : Nat) : List RHit :=
  let query_words := (pySplit query.toLower).toFinset
  let chunk_scores := chunks.enum.map (fun p => (p.1, keywordScore query_words p.2))
  let sorted := List.insertionSort sndGe chunk_scores
  ((sorted.take top_k).filter (fun p => decide (0 < p.2))).map
    (fun p => ⟨p.1, chunks.getD p.1 "", (p.2 : ℝ)⟩)

/-- The `try` block of `find_relevant_chunks` given the query embedding:
cosine similarities, argsort selection, threshold filter and chunk lookup;
any raised error aborts the whole block. -/
noncomputable def primaryRank (qv : List ℚ) (chunks : List String) (embs : List (List ℚ))
    (k : Nat) : Except Unit (List RHit) :=
  match computeSims qv embs with
  | .ok sims => buildHits chunks (pySelect sims k)
  | .error e => .error e

/-- `find_relevant_chunks(query, document_chunks, document_embeddings, top_k)`
from lightweight_embeddings.py, taking the query embedding `qv` (the value of
`get_query_embedding(query)`) as an argument: the primary cosine path, falling
back to `_simple_keyword_search` when the primary path raises. -/
noncomputable def find_relevant_chunks (query : String) (qv : List ℚ) (chunks : List String)
    (embs : List (List ℚ)) (k : Nat) : List RHit :=
  match primaryRank qv chunks embs k with
  | .ok r => r
  | .error _ => simple_keyword_search query chunks k

/-- A stored document as returned by `get_user_documents_with_content`,
restricted to the fields the query path reads. -/
structure ContentDoc where
  filename : String
  chunks : List String
  embeddings : List (List ℚ)

/-- A hit tagged with its document's filename (`chunk['filename'] = ...`). -/
structure TaggedHit where
  filename : String
  chunk_index : Nat
  content : String
  relevance_score : ℝ

/-- Descending comparison on tagged hits, the key of
`all_relevant_chunks.sort(key=..., reverse=True)`. -/
def hitGe (a b : TaggedHit) : Prop := b.relevance_score ≤ a.relevance_score

noncomputable instance : DecidableRel hitGe :=
  fun a b => inferInstanceAs (Decidable (b.relevance_score ≤ a.relevance_score))

instance : IsTotal TaggedHit hitGe := ⟨fun a b => le_total b.relevance_score a.relevance_score⟩

instance : IsTrans TaggedHit hitGe := ⟨fun _ _ _ h h2 => le_trans h2 h⟩

/-- The per-document fan-out of `query_documents`: rank every document with
`top_k = 3`, tag each hit with the document's filename, and concatenate. -/
noncomputable def allRelevantChunks (question : String) (qv : List ℚ)
    (docs : List ContentDoc) : List TaggedHit :=
  (docs.map (fun d =>
    (find_relevant_chunks question qv d.chunks d.embeddings 3).map
      (fun h => ⟨d.filename, h.chunk_index, h.content, h.relevance_score⟩))).flatten

/-- The cross-document merge of `query_documents`: stable sort all tagged hits
by descending relevance score and keep the first 5. -/
noncomputable def topChunks (question : String) (qv : List ℚ)
    (docs : List ContentDoc) : List TaggedHit :=
  (List.insertionSort hitGe (allRelevantChunks question qv docs)).take 5

/-- A `sources` entry of the query response. -/
structure SourceRec where
  filename : String
  chunk_index : Nat
  relevance_score : ℝ

/-- The body of `QueryResponse` (server.py). -/
structure QueryResponse where
  answer : String
  sources : List SourceRec

/-- The Gemini prompt built by `query_documents`. -/
def mkPrompt (context question : String) : String :=
  "Based on the following context from the user\x27s documents, answer the question. Only use information from the provided context.\n\nContext:\n"
    ++ context ++ "\n\nQuestion: " ++ question ++ "\n\nAnswer:"

/-- Error detail raised when the user has no documents. -/
def noDocsMsg : String := "No documents found. Please upload some documents first."

/-- Answer returned when no document yields any hit. -/
def noInfoMsg : String := "I couldn\x27t find relevant information in your documents to answer this question."

/-- `query_documents` from server.py, given the stored documents of the user,
the query embedding `qv`, and the external completion call `llm` (the Gemini
`generate_content` call, which may fail).  Returns the endpoint result
(`Except` models the raised `HTTPException`) together with the list of
prompts sent to the completion service. -/
noncomputable def query_documents (llm : String → Except String String)
    (docs : List ContentDoc) (question : String) (qv : List ℚ) :
    Except String QueryResponse × List String :=
  if docs.isEmpty then (.error noDocsMsg, [])
  else
    let all := allRelevantChunks question qv docs
    if all.isEmpty then (.ok ⟨noInfoMsg, []⟩, [])
    else
      let top := topChunks question qv docs
      let context := String.intercalate "\n\n" (top.map TaggedHit.content)
      let prompt := mkPrompt context question
      let answer := match llm prompt with
        | .ok t => t
        | .error e => "Error generating response: " ++ e
      (.ok ⟨answer, top.map (fun c => ⟨c.filename, c.chunk_index, c.relevance_score⟩)⟩, [prompt])

/-- Abstract interface of sklearn's `TfidfVectorizer` as used by
`LightweightEmbeddings`: fitting may fail, transforming against a fitted
model may fail, and a fitted model determines a fixed dimensionality. -/
structure Vectorizer (μ : Type) where
  fit : List String → Except Unit μ
  transform : μ → String → Except Unit (List ℚ)
  dim : μ → Nat

/-- `_simple_word_embeddings(texts)` from lightweight_embeddings.py: sorted
distinct lowercase words across the texts, capped at 500, and one binary
presence vector per text. -/
def simple_word_embeddings (texts : List String) : List (List ℚ) :=
  let all_words := ((texts.map (fun t => pySplit t.toLower)).flatten).dedup
  let word_list := (List.insertionSort (fun a b => a ≤ b) all_words).take 500
  texts.map (fun t =>
    let words := pySplit t.toLower
    word_list.map (fun w => if w ∈ words then (1:ℚ) else 0))

/-- Batch transform (`tfidf_vectorizer.transform(texts)`), failing if any
single transform fails. -/
def mapTransform {μ : Type} (V : Vectorizer μ) (m : μ) : List String → Except Unit (List (List ℚ))
  | [] => .ok []
  | t :: ts =>
    match V.transform m t with
    | .ok v => (mapTransform V m ts).map (fun vs => v :: vs)
    | .error e => .error e

/-- `get_embeddings_tfidf(texts)`: fit lazily on first call (the state is
`none` before the first successful fit, `some m` afterwards), then transform;
any raised error is swallowed and replaced by `_simple_word_embeddings`.
A fit failure leaves `is_fitted` false; a transform failure after a
successful fit leaves the newly fitted state in place. -/
def get_embeddings_tfidf {μ : Type} (V : Vectorizer μ) (st : Option μ)
    (texts : List String) : Option μ × List (List ℚ) :=
  match st with
  | some m =>
    (some m,
      match mapTransform V m texts with
      | .ok vs => vs
      | .error _ => simple_word_embeddings texts)
  | none =>
    match V.fit texts with
    | .ok m =>
      (some m,
        match mapTransform V m texts with
        | .ok vs => vs
        | .error _ => simple_word_embeddings texts)
    | .error _ => (none, simple_word_embeddings texts)

/-- `get_query_embedding(query)`: transform against the fitted model (this
call is not guarded by a `try`, so a transform failure propagates to the
caller), or the stateless simple word embedding when never fitted. -/
def get_query_embedding {μ : Type} (V : Vectorizer μ) (st : Option μ)
    (query : String) : Except Unit (List ℚ) :=
  match st with
  | some m => V.transform m query
  | none => .ok ((simple_word_embeddings [query]).getD 0 [])

/-- A trivial concrete vectorizer used to instantiate the abstract interface
on concrete inputs: fitting always succeeds, every transform yields the
one-dimensional vector `[0]`. -/
def unitVectorizer : Vectorizer Unit :=
  ⟨fun _ => .ok (), fun _ _ => .ok [0], fun _ => 1⟩

/-- Structured serialized payload: the fragment of JSON that
`json.dumps`/`json.loads` exchange for chunk lists and embedding lists. -/
inductive JsonVal where
  | str (s : String)
  | num (x : ℚ)
  | arr (items : List JsonVal)

/-- `json.dumps(chunks)`. -/
def encodeChunks (cs : List String) : JsonVal := .arr (cs.map .str)

/-- `json.dumps(embeddings)`. -/
def encodeEmbeddings (es : List (List ℚ)) : JsonVal :=
  .arr (es.map (fun v => .arr (v.map .num)))

/-- Decode a JSON array of strings. -/
def decodeStrings : List JsonVal → Option (List String)
  | [] => some []
  | .str s :: rest => (decodeStrings rest).map (fun l => s :: l)
  | _ => none

/-- `json.loads` of a chunk-list payload. -/
def decodeChunks : JsonVal → Option (List String)
  | .arr items => decodeStrings items
  | _ => none

/-- Decode a JSON array of numbers. -/
def decodeNums : List JsonVal → Option (List ℚ)
  | [] => some []
  | .num x :: rest => (decodeNums rest).map (fun l => x :: l)
  | _ => none

/-- Decode a JSON array of arrays of numbers. -/
def decodeVecs : List JsonVal → Option (List (List ℚ))
  | [] => some []
  | .arr v :: rest =>
    match decodeNums v with
    | some xs => (decodeVecs rest).map (fun l => xs :: l)
    | none => none
  | _ => none

/-- `json.loads` of an embedding-list payload. -/
def decodeEmbeddings : JsonVal → Option (List (List ℚ))
  | .arr items => decodeVecs items
  | _ => none

/-- A document record as assembled by the upload endpoints (server.py). -/
structure DocRecord where
  id : String
  user_id : String
  filename : String
  content : String
  chunks : List String
  embeddings : List (List ℚ)
  upload_time : String
  chunk_count : Nat
  status : String

/-- A row of the `documents` table: chunks and embeddings are stored as
serialized payloads. -/
structure DocRow where
  id : String
  user_id : String
  filename : String
  content : String
  chunksJson : JsonVal
  embeddingsJson : JsonVal
  upload_time : String
  chunk_count : Nat
  status : String

/-- `Database.create_document`: serialize the chunk and embedding lists and
insert the row; the insert fails (returning `false`, with no row written)
when the primary key `id` already exists. -/
def create_document (db : List DocRow) (d : DocRecord) : List DocRow × Bool :=
  if db.any (fun r => r.id == d.id) then (db, false)
  else
    (db ++ [⟨d.id, d.user_id, d.filename, d.content, encodeChunks d.chunks,
             encodeEmbeddings d.embeddings, d.upload_time, d.chunk_count, d.status⟩],
     true)

/-- A record as returned by `get_user_documents_with_content`; the decoded
chunk and embedding payloads are `Option`s because the stored text is parsed
back. -/
structure ContentRecord where
  id : String
  filename : String
  content : String
  chunks : Option (List String)
  embeddings : Option (List (List ℚ))

/-- `Database.get_user_documents_with_content`: select the user's rows in
insertion order and deserialize the chunk and embedding payloads. -/
def get_user_documents_with_content (db : List DocRow) (uid : String) : List ContentRecord :=
  (db.filter (fun r => r.user_id == uid)).map
    (fun r => ⟨r.id, r.filename, r.content, decodeChunks r.chunksJson,
               decodeEmbeddings r.embeddingsJson⟩)

/-! ### Chunker lemmas -/

theorem strMk_toList (s : String) : String.mk s.toList = s := rfl

theorem pySplitChars_tokens (s : List Char) :
    ∀ acc, (∀ c ∈ acc, c.isWhitespace = false) →
      ∀ t ∈ pySplitChars s acc, t ≠ [] ∧ ∀ c ∈ t, c.isWhitespace = false := by
  induction s with
  | nil =>
    intro acc hacc t ht
    rw [pySplitChars] at ht
    split at ht
    · simp at ht
    · rename_i h
      simp only [List.mem_singleton] at ht
      subst ht
      refine ⟨?_, ?_⟩
      · simp only [ne_eq, List.reverse_eq_nil_iff]
        simpa [List.isEmpty_iff] using h
      · intro c hc
        exact hacc c (List.mem_reverse.mp hc)
  | cons c cs ih =>
    intro acc hacc t ht
    rw [pySplitChars] at ht
    split at ht
    · split at ht
      · exact ih [] (by simp) t ht
      · rename_i hne
        rcases List.mem_cons.mp ht with h | h
        · subst h
          refine ⟨?_, fun c2 hc2 => hacc c2 (List.mem_reverse.mp hc2)⟩
          simp only [ne_eq, List.reverse_eq_nil_iff]
          simpa [List.isEmpty_iff] using hne
        · exact ih [] (by simp) t h
    · rename_i hws
      refine ih (c :: acc) ?_ t ht
      intro c2 hc2
      rcases List.mem_cons.mp hc2 with h | h
      · subst h
        simpa using hws
      · exact hacc c2 h

theorem pySplitChars_append (w : List Char) :
    ∀ acc s, (∀ c ∈ w, c.isWhitespace = false) →
      pySplitChars (w ++ s) acc = pySplitChars s (w.reverse ++ acc) := by
  induction w with
  | nil => intro acc s _; simp
  | cons c cs ih =>
    intro acc s hw
    have hc : c.isWhitespace = false := hw c (List.mem_cons_self c cs)
    rw [List.cons_append, pySplitChars, if_neg (by simp [hc])]
    rw [ih (c :: acc) s (fun x hx => hw x (List.mem_cons_of_mem c hx))]
    simp

theorem pySplitChars_joinSp (ws : List (List Char))
    (h : ∀ w ∈ ws, w ≠ [] ∧ ∀ c ∈ w, c.isWhitespace = false) :
    pySplitChars (joinSpChars ws) [] = ws := by
  induction ws with
  | nil => rw [joinSpChars, pySplitChars]; rfl
  | cons w rest ih =>
    obtain ⟨hne, hws⟩ := h w (List.mem_cons_self w rest)
    cases rest with
    | nil =>
      rw [joinSpChars]
      have hw : pySplitChars (w ++ []) [] = pySplitChars [] (w.reverse ++ []) :=
        pySplitChars_append w [] [] hws
      rw [List.append_nil] at hw
      rw [hw, List.append_nil, pySplitChars,
        if_neg (by simpa [List.isEmpty_iff, List.reverse_eq_nil_iff] using hne)]
      simp
    | cons w2 rest2 =>
      rw [joinSpChars, pySplitChars_append w [] (' ' :: joinSpChars (w2 :: rest2)) hws]
      rw [List.append_nil, pySplitChars, if_pos (by decide),
        if_neg (by simpa [List.isEmpty_iff, List.reverse_eq_nil_iff] using hne)]
      rw [ih (fun x hx => h x (List.mem_cons_of_mem w hx))]
      simp

theorem joinSpChars_ne_nil (ws : List (List Char)) (hne : ws ≠ [])
    (h : ∀ w ∈ ws, w ≠ []) : joinSpChars ws ≠ [] := by
  cases ws with
  | nil => exact absurd rfl hne
  | cons w rest =>
    cases rest with
    | nil => simpa [joinSpChars] using h w (List.mem_cons_self w [])
    | cons w2 rest2 =>
      rw [joinSpChars]
      intro hcontra
      rcases List.append_eq_nil.mp hcontra with ⟨-, h2⟩
      exact List.cons_ne_nil _ _ h2

theorem pySplit_tokens (s : String) :
    ∀ t ∈ pySplit s, t ≠ "" ∧ ∀ c ∈ t.toList, c.isWhitespace = false := by
  intro t ht
  simp only [pySplit, List.mem_map] at ht
  obtain ⟨l, hl, rfl⟩ := ht
  obtain ⟨hne, hws⟩ := pySplitChars_tokens s.toList [] (by simp) l hl
  refine ⟨?_, hws⟩
  intro hcontra
  apply hne
  have h2 : (String.mk l).toList = ("" : String).toList := by rw [hcontra]
  simpa using h2

theorem pySplit_joinSp (ws : List String)
    (h : ∀ w ∈ ws, w ≠ "" ∧ ∀ c ∈ w.toList, c.isWhitespace = false) :
    pySplit (joinSp ws) = ws := by
  unfold pySplit joinSp
  have htl : (String.mk (joinSpChars (ws.map String.toList))).toList
      = joinSpChars (ws.map String.toList) := rfl
  rw [htl, pySplitChars_joinSp]
  · rw [List.map_map]
    apply List.map_id'
  · intro l hl
    simp only [List.mem_map] at hl
    obtain ⟨w, hw, rfl⟩ := hl
    obtain ⟨hne, hws⟩ := h w hw
    refine ⟨?_, hws⟩
    intro h0
    apply hne
    rw [← strMk_toList w, h0]

theorem joinSp_ne_empty (ws : List String) (hne : ws ≠ []) (h : ∀ w ∈ ws, w ≠ "") :
    joinSp ws ≠ "" := by
  unfold joinSp
  intro hcontra
  refine joinSpChars_ne_nil (ws.map String.toList) (by simpa using hne) ?_ ?_
  · intro l hl
    simp only [List.mem_map] at hl
    obtain ⟨w, hw, rfl⟩ := hl
    intro h0
    apply h w hw
    rw [← strMk_toList w, h0]
  · have h2 : (String.mk (joinSpChars (ws.map String.toList))).toList = ("" : String).toList := by
      rw [hcontra]
    simpa using h2

theorem chunkLoop_words (csize : Nat) (ws : List String) :
    ∀ cur, (∀ w ∈ cur ++ ws, w ≠ "" ∧ ∀ c ∈ w.toList, c.isWhitespace = false) →
      ∀ sz, ((chunkLoop csize ws cur sz).map pySplit).flatten = cur ++ ws := by
  induction ws with
  | nil =>
    intro cur h sz
    rw [chunkLoop]
    by_cases hc : cur.isEmpty
    · rw [if_pos hc]
      simp [List.isEmpty_iff.mp hc]
    · rw [if_neg hc]
      simp only [List.map_cons, List.map_nil, List.flatten_cons, List.flatten_nil,
        List.append_nil]
      rw [pySplit_joinSp cur (fun w hw => h w (by simpa using hw))]
  | cons w ws ih =>
    intro cur h sz
    simp only [chunkLoop]
    by_cases hle : csize ≤ sz + (w.length + 1)
    · rw [if_pos hle]
      simp only [List.map_cons, List.flatten_cons]
      rw [pySplit_joinSp (cur ++ [w]) (fun x hx => h x (by
        rcases List.mem_append.mp hx with h1 | h1
        · exact List.mem_append.mpr (Or.inl h1)
        · simp only [List.mem_singleton] at h1
          subst h1
          exact List.mem_append.mpr (Or.inr (List.mem_cons_self x ws))))]
      rw [ih [] (fun x hx => h x (by
        simp only [List.nil_append] at hx
        exact List.mem_append.mpr (Or.inr (List.mem_cons_of_mem w hx)))) 0]
      simp
    · rw [if_neg hle]
      rw [ih (cur ++ [w]) (fun x hx => h x (by
        rcases List.mem_append.mp hx with h1 | h1
        · rcases List.mem_append.mp h1 with h2 | h2
          · exact List.mem_append.mpr (Or.inl h2)
          · simp only [List.mem_singleton] at h2
            subst h2
            exact List.mem_append.mpr (Or.inr (List.mem_cons_self x ws))
        · exact List.mem_append.mpr (Or.inr (List.mem_cons_of_mem w h1)))) (sz + (w.length + 1))]
      simp

theorem chunkLoop_ne_empty (csize : Nat) (ws : List String) :
    ∀ cur, (∀ w ∈ cur ++ ws, w ≠ "") →
      ∀ sz ch, ch ∈ chunkLoop csize ws cur sz → ch ≠ "" := by
  induction ws with
  | nil =>
    intro cur h sz ch hch
    rw [chunkLoop] at hch
    split at hch
    · simp at hch
    · rename_i hc
      simp only [List.mem_singleton] at hch
      subst hch
      exact joinSp_ne_empty cur (by simpa [List.isEmpty_iff] using hc)
        (fun x hx => h x (by simpa using hx))
  | cons w ws ih =>
    intro cur h sz ch hch
    simp only [chunkLoop] at hch
    split at hch
    · rcases List.mem_cons.mp hch with h1 | h1
      · subst h1
        refine joinSp_ne_empty (cur ++ [w]) (by simp) ?_
        intro x hx
        rcases List.mem_append.mp hx with h2 | h2
        · exact h x (List.mem_append.mpr (Or.inl h2))
        · simp only [List.mem_singleton] at h2
          subst h2
          exact h x (List.mem_append.mpr (Or.inr (List.mem_cons_self x ws)))
      · refine ih [] ?_ 0 ch h1
        intro x hx
        simp only [List.nil_append] at hx
        exact h x (List.mem_append.mpr (Or.inr (List.mem_cons_of_mem w hx)))
    · refine ih (cur ++ [w]) ?_ (sz + (w.length + 1)) ch hch
      intro x hx
      rcases List.mem_append.mp hx with h1 | h1
      · rcases List.mem_append.mp h1 with h2 | h2
        · exact h x (List.mem_append.mpr (Or.inl h2))
        · simp only [List.mem_singleton] at h2
          subst h2
          exact h x (List.mem_append.mpr (Or.inr (List.mem_cons_self x ws)))
      · exact h x (List.mem_append.mpr (Or.inr (List.mem_cons_of_mem w h1)))

/-- C1: for every input text and positive chunk size, concatenating the
whitespace-delimited words of the chunks of `chunk_text` reproduces the word
sequence of the input in order, every produced chunk is non-empty, and an
input with no words produces the empty chunk sequence. -/
theorem c1_chunker (text : String) (chunk_size : Nat) (_hpos : 0 < chunk_size) :
    ((chunk_text text chunk_size).map pySplit).flatten = pySplit text
    ∧ (∀ ch ∈ chunk_text text chunk_size, ch ≠ "")
    ∧ (pySplit text = [] → chunk_text text chunk_size = []) := by
  refine ⟨?_, ?_, ?_⟩
  · exact chunkLoop_words chunk_size (pySplit text) []
      (fun w hw => pySplit_tokens text w (by simpa using hw)) 0
  · intro ch hch
    exact chunkLoop_ne_empty chunk_size (pySplit text) []
      (fun w hw => (pySplit_tokens text w (by simpa using hw)).1) 0 ch hch
  · intro h
    unfold chunk_text
    rw [h]
    rfl

/-- Witness for C1 at a concrete input. -/
theorem c1_chunker_witness :
    0 < 500 ∧
      (((chunk_text "hello world" 500).map pySplit).flatten = pySplit "hello world"
      ∧ (∀ ch ∈ chunk_text "hello world" 500, ch ≠ "")
      ∧ (pySplit "hello world" = [] → chunk_text "hello world" 500 = [])) :=
  ⟨by decide, c1_chunker "hello world" 500 (by decide)⟩

/-! ### List and sorting lemmas -/

theorem getElem?_some_spec {γ : Type} {l : List γ} {i : Nat} {a : γ} (d : γ)
    (h : l[i]? = some a) : i < l.length ∧ l.getD i d = a := by
  have hlt : i < l.length := by
    by_contra hge
    rw [List.getElem?_eq_none (Nat.le_of_not_lt hge)] at h
    cases h
  refine ⟨hlt, ?_⟩
  rw [List.getD_eq_getElem?_getD, h]
  rfl

theorem enumFrom_fst_le {γ : Type} (l : List γ) : ∀ n q, q ∈ l.enumFrom n → n ≤ q.1 := by
  induction l with
  | nil => intro n q hq; simp at hq
  | cons a t ih =>
    intro n q hq
    rw [List.enumFrom_cons] at hq
    rcases List.mem_cons.mp hq with h | h
    · subst h; exact le_refl n
    · exact le_trans (Nat.le_succ n) (ih (n + 1) q h)

theorem enumFrom_pairwise_fst {γ : Type} (l : List γ) :
    ∀ n, (l.enumFrom n).Pairwise (fun p q => p.1 ≤ q.1) := by
  induction l with
  | nil => intro n; simp
  | cons a t ih =>
    intro n
    rw [List.enumFrom_cons]
    refine List.Pairwise.cons ?_ (ih (n + 1))
    intro q hq
    exact le_trans (Nat.le_succ n) (enumFrom_fst_le t (n + 1) q hq)

theorem enum_pairwise_fst {γ : Type} (l : List γ) :
    l.enum.Pairwise (fun p q => p.1 ≤ q.1) :=
  enumFrom_pairwise_fst l 0

theorem enumFrom_getElem {γ : Type} (l : List γ) :
    ∀ n p, p ∈ l.enumFrom n → n ≤ p.1 ∧ l[p.1 - n]? = some p.2 := by
  induction l with
  | nil => intro n p hp; simp at hp
  | cons a t ih =>
    intro n p hp
    rw [List.enumFrom_cons] at hp
    rcases List.mem_cons.mp hp with h | h
    · subst h
      exact ⟨le_refl n, by simp⟩
    · obtain ⟨h1, h2⟩ := ih (n + 1) p h
      refine ⟨by omega, ?_⟩
      have hstep : p.1 - n = (p.1 - (n + 1)) + 1 := by omega
      rw [hstep]
      simpa using h2

theorem enum_getElem {γ : Type} (l : List γ) (p : Nat × γ) (hp : p ∈ l.enum) :
    l[p.1]? = some p.2 := by
  have h := (enumFrom_getElem l 0 p hp).2
  simpa using h

section SortLemmas

variable {α : Type} [LinearOrder α]

theorem keyLe_trans {p q r : Nat × α} (h1 : keyLe p q) (h2 : keyLe q r) : keyLe p r := by
  rcases h1 with h1 | ⟨h1e, h1i⟩
  · rcases h2 with h2 | ⟨h2e, h2i⟩
    · exact Or.inl (lt_trans h1 h2)
    · exact Or.inl (lt_of_lt_of_le h1 (le_of_eq h2e))
  · rcases h2 with h2 | ⟨h2e, h2i⟩
    · exact Or.inl (lt_of_le_of_lt (le_of_eq h1e) h2)
    · exact Or.inr ⟨h1e.trans h2e, le_trans h1i h2i⟩

theorem orderedInsert_pairwise_keyLe (p : Nat × α) :
    ∀ l : List (Nat × α), l.Pairwise keyLe → (∀ q ∈ l, p.1 ≤ q.1) →
      (List.orderedInsert sndLe p l).Pairwise keyLe := by
  intro l
  induction l with
  | nil => intro _ _; simp
  | cons b t ih =>
    intro hl hidx
    rw [List.orderedInsert]
    by_cases hle : sndLe p b
    · rw [if_pos hle]
      have hpb : keyLe p b := by
        rcases lt_or_eq_of_le hle with h2 | h2
        · exact Or.inl h2
        · exact Or.inr ⟨h2, hidx b (List.mem_cons_self b t)⟩
      refine List.Pairwise.cons ?_ hl
      intro q hq
      rcases List.mem_cons.mp hq with h | h
      · subst h; exact hpb
      · exact keyLe_trans hpb (List.rel_of_pairwise_cons hl h)
    · rw [if_neg hle]
      have hbp : b.2 < p.2 := lt_of_not_le hle
      refine List.Pairwise.cons ?_ (ih hl.of_cons (fun q hq => hidx q (List.mem_cons_of_mem b hq)))
      intro q hq
      rcases (List.mem_orderedInsert sndLe).mp hq with h | h
      · subst h; exact Or.inl hbp
      · exact List.rel_of_pairwise_cons hl h

theorem insertionSort_pairwise_keyLe :
    ∀ l : List (Nat × α), l.Pairwise (fun p q => p.1 ≤ q.1) →
      (List.insertionSort sndLe l).Pairwise keyLe := by
  intro l
  induction l with
  | nil => intro _; simp
  | cons a t ih =>
    intro hl
    rw [List.insertionSort]
    refine orderedInsert_pairwise_keyLe a _ (ih hl.of_cons) ?_
    intro q hq
    exact List.rel_of_pairwise_cons hl ((List.perm_insertionSort sndLe t).subset hq)

theorem enumSort_pairwise_keyLe (sims : List α) : (enumSort sims).Pairwise keyLe :=
  insertionSort_pairwise_keyLe sims.enum (enum_pairwise_fst sims)

theorem pyLastSlice_sublist {γ : Type} (k : Nat) (l : List γ) : (pyLastSlice k l).Sublist l := by
  unfold pyLastSlice
  split
  · exact List.Sublist.refl l
  · have h2 := (List.take_sublist k l.reverse).reverse
    simpa using h2

theorem pySelect_pairwise_keyGd (sims : List α) (k : Nat) :
    (pySelect sims k).Pairwise keyGd := by
  unfold pySelect
  rw [List.pairwise_reverse]
  have h := List.Pairwise.sublist (pyLastSlice_sublist k (enumSort sims))
    (enumSort_pairwise_keyLe sims)
  refine h.imp ?_
  intro p q hpq
  exact hpq.imp id (fun h2 => ⟨h2.1.symm, h2.2⟩)

theorem pySelect_pairwise_snd (sims : List α) (k : Nat) :
    (pySelect sims k).Pairwise (fun p q => q.2 ≤ p.2) := by
  refine (pySelect_pairwise_keyGd sims k).imp ?_
  intro p q hpq
  rcases hpq with h | ⟨he, _⟩
  · exact le_of_lt h
  · exact le_of_eq he.symm

theorem pySelect_length_le (sims : List α) (k : Nat) (hk : 1 ≤ k) :
    (pySelect sims k).length ≤ k := by
  unfold pySelect pyLastSlice
  rw [if_neg (by omega)]
  simp only [List.length_reverse, List.length_take]
  exact min_le_left k _

theorem reverse_enumSort_eq (sims : List α) :
    (enumSort sims).reverse = List.insertionSort keyGd sims.enum := by
  have hperm : (enumSort sims).reverse.Perm (List.insertionSort keyGd sims.enum) :=
    ((List.reverse_perm (enumSort sims)).trans
      (List.perm_insertionSort sndLe sims.enum)).trans
      (List.perm_insertionSort keyGd sims.enum).symm
  have hs1 : List.Sorted keyGd (enumSort sims).reverse := by
    rw [List.Sorted, List.pairwise_reverse]
    refine (enumSort_pairwise_keyLe sims).imp ?_
    intro p q hpq
    exact hpq.imp id (fun h2 => ⟨h2.1.symm, h2.2⟩)
  exact List.eq_of_perm_of_sorted hperm hs1 (List.sorted_insertionSort keyGd sims.enum)

theorem pySelect_eq_selTopDesc (sims : List α) (k : Nat) (hk : 1 ≤ k) :
    pySelect sims k = selTopDesc sims k := by
  unfold pySelect selTopDesc pyLastSlice
  rw [if_neg (by omega), List.reverse_reverse, reverse_enumSort_eq]

theorem pySelect_mem_enum (sims : List α) (k : Nat) {p : Nat × α}
    (hp : p ∈ pySelect sims k) : p ∈ sims.enum := by
  unfold pySelect at hp
  rw [List.mem_reverse] at hp
  exact (List.perm_insertionSort sndLe sims.enum).subset
    ((pyLastSlice_sublist k (enumSort sims)).subset hp)

end SortLemmas

/-! ### Ranker lemmas -/

theorem buildHits_ok_spec (chunks : List String) :
    ∀ ps r, buildHits chunks ps = .ok r →
      ∃ qs : List (Nat × ℝ), qs.Sublist ps
        ∧ (∀ p ∈ qs, (1:ℝ)/10 < p.2 ∧ p.1 < chunks.length)
        ∧ r = qs.map (fun p => ⟨p.1, chunks.getD p.1 "", p.2⟩) := by
  intro ps
  induction ps with
  | nil =>
    intro r hr
    rw [buildHits] at hr
    cases hr
    exact ⟨[], List.Sublist.refl [], by simp, rfl⟩
  | cons p ps ih =>
    intro r hr
    rw [buildHits] at hr
    split at hr
    · rename_i hthr
      split at hr
      · rename_i c hc
        cases hbuild : buildHits chunks ps with
        | ok r0 =>
          rw [hbuild] at hr
          simp only [Except.map, Except.ok.injEq] at hr
          subst hr
          obtain ⟨qs, hsub, hprop, hr0⟩ := ih r0 hbuild
          obtain ⟨hlt, hgd⟩ := getElem?_some_spec "" hc
          refine ⟨p :: qs, List.Sublist.cons₂ p hsub, ?_, ?_⟩
          · intro q hq
            rcases List.mem_cons.mp hq with h | h
            · subst h
              exact ⟨hthr, hlt⟩
            · exact hprop q h
          · rw [List.map_cons, hgd, hr0]
        | error e =>
          rw [hbuild] at hr
          simp only [Except.map] at hr
          cases hr
      · cases hr
    · rename_i hthr
      obtain ⟨qs, hsub, hprop, hr0⟩ := ih r hr
      exact ⟨qs, List.Sublist.cons p hsub, hprop, hr0⟩

theorem primaryRank_ok_spec {qv : List ℚ} {chunks : List String} {embs : List (List ℚ)}
    {k : Nat} {r : List RHit} (hr : primaryRank qv chunks embs k = .ok r) :
    ∃ sims, computeSims qv embs = .ok sims
      ∧ ∃ qs : List (Nat × ℝ), qs.Sublist (pySelect sims k)
        ∧ (∀ p ∈ qs, (1:ℝ)/10 < p.2 ∧ p.1 < chunks.length)
        ∧ r = qs.map (fun p => ⟨p.1, chunks.getD p.1 "", p.2⟩) := by
  unfold primaryRank at hr
  split at hr
  · rename_i sims hsims
    exact ⟨sims, hsims, buildHits_ok_spec chunks (pySelect sims k) r hr⟩
  · cases hr

theorem primaryRank_hits {qv : List ℚ} {chunks : List String} {embs : List (List ℚ)}
    {k : Nat} {r : List RHit} (hr : primaryRank qv chunks embs k = .ok r) :
    (∀ h ∈ r, (1:ℝ)/10 < h.relevance_score
      ∧ h.chunk_index < chunks.length
      ∧ h.content = chunks.getD h.chunk_index "")
    ∧ r.Pairwise (fun a b => b.relevance_score ≤ a.relevance_score)
    ∧ (1 ≤ k → r.length ≤ k) := by
  obtain ⟨sims, hsims, qs, hsub, hprop, hr0⟩ := primaryRank_ok_spec hr
  subst hr0
  refine ⟨?_, ?_, ?_⟩
  · intro h hmem
    rw [List.mem_map] at hmem
    obtain ⟨p, hp, rfl⟩ := hmem
    obtain ⟨h1, h2⟩ := hprop p hp
    exact ⟨h1, h2, rfl⟩
  · rw [List.pairwise_map]
    refine (List.Pairwise.sublist hsub (pySelect_pairwise_snd sims k)).imp ?_
    intro p q hpq
    exact hpq
  · intro hk
    rw [List.length_map]
    exact le_trans hsub.length_le (pySelect_length_le sims k hk)

/-! ### Keyword-fallback lemmas -/

theorem simple_keyword_mem (query : String) (chunks : List String) (k : Nat) :
    ∀ h ∈ simple_keyword_search query chunks k,
      h.chunk_index < chunks.length
      ∧ h.content = chunks.getD h.chunk_index ""
      ∧ h.relevance_score =
          ((keywordScore (pySplit query.toLower).toFinset (chunks.getD h.chunk_index "") : ℚ) : ℝ)
      ∧ 0 < h.relevance_score := by
  intro h hmem
  simp only [simple_keyword_search, List.mem_map, List.mem_filter] at hmem
  obtain ⟨p, ⟨hp_take, hp_pos⟩, rfl⟩ := hmem
  have hp_scores := (List.perm_insertionSort sndGe _).subset (List.mem_of_mem_take hp_take)
  simp only [List.mem_map] at hp_scores
  obtain ⟨e, he, hpe⟩ := hp_scores
  have hget := enum_getElem chunks e he
  obtain ⟨hlt, hgd⟩ := getElem?_some_spec "" hget
  have hfst : p.1 = e.1 := by rw [← hpe]
  have hsnd : p.2 = keywordScore (pySplit query.toLower).toFinset e.2 := by rw [← hpe]
  have hqpos : (0:ℚ) < p.2 := of_decide_eq_true hp_pos
  refine ⟨by rw [hfst]; exact hlt, rfl, ?_, ?_⟩
  · rw [hsnd, hfst, hgd]
  · show (0:ℝ) < ((p.2 : ℚ) : ℝ)
    exact_mod_cast hqpos

theorem simple_keyword_pairwise (query : String) (chunks : List String) (k : Nat) :
    (simple_keyword_search query chunks k).Pairwise
      (fun a b => b.relevance_score ≤ a.relevance_score) := by
  simp only [simple_keyword_search]
  rw [List.pairwise_map]
  refine List.Pairwise.imp ?_ (List.Pairwise.sublist (List.filter_sublist _)
    (List.Pairwise.sublist (List.take_sublist k _) (List.sorted_insertionSort sndGe _)))
  intro p q hpq
  show ((q.2 : ℚ) : ℝ) ≤ ((p.2 : ℚ) : ℝ)
  exact_mod_cast hpq

theorem simple_keyword_length (query : String) (chunks : List String) (k : Nat) :
    (simple_keyword_search query chunks k).length ≤ k := by
  simp only [simple_keyword_search, List.length_map]
  refine le_trans (List.length_filter_le _ _) ?_
  rw [List.length_take]
  exact min_le_left k _

theorem simple_keyword_empty_query (query : String) (chunks : List String) (k : Nat)
    (hq : (pySplit query.toLower).toFinset = ∅) :
    simple_keyword_search query chunks k = [] := by
  simp only [simple_keyword_search]
  have hall : ∀ p ∈ (List.insertionSort sndGe
      (chunks.enum.map (fun p =>
        (p.1, keywordScore (pySplit query.toLower).toFinset p.2)))).take k, p.2 = (0:ℚ) := by
    intro p hp
    have hmem := (List.perm_insertionSort sndGe _).subset (List.mem_of_mem_take hp)
    simp only [List.mem_map] at hmem
    obtain ⟨e, he, hpe⟩ := hmem
    rw [← hpe]
    simp [keywordScore, hq]
  rw [List.filter_eq_nil_iff.mpr ?_]
  · rfl
  · intro p hp
    rw [hall p hp]
    decide

/-! ### Concrete evaluations used by witnesses and counterexamples -/

theorem cosineSim_unit : cosineSim [1] [1] = 1 := by
  unfold cosineSim dotQ
  norm_num [Real.sqrt_one]

theorem computeSims_unit : computeSims [1] [[1]] = .ok [cosineSim [1] [1]] := by
  simp [computeSims, Except.map]

theorem frc_unit_eval : find_relevant_chunks "q" [1] ["a"] [[1]] 3 = [⟨0, "a", (1:ℝ)⟩] := by
  unfold find_relevant_chunks primaryRank
  rw [computeSims_unit, cosineSim_unit]
  simp [pySelect, enumSort, pyLastSlice, List.insertionSort, List.orderedInsert,
    List.enum, List.enumFrom, buildHits, Except.map]
  norm_num

/-! ### Claim C2 -/

/-- C2 counterexample: with query vector `[1]` and two identical candidate
vectors `[1]` the cosine similarities tie; the code's selection
(`argsort[-top_k:][::-1]`) lists index 1 before index 0, while the claimed
order (a stable sort on negated score, ties by ascending original index)
lists index 0 before index 1. -/
theorem c2_counterexample :
    computeSims [1] [[1], [1]] = .ok [cosineSim [1] [1], cosineSim [1] [1]]
    ∧ pySelect [cosineSim [1] [1], cosineSim [1] [1]] 3
        = [(1, cosineSim [1] [1]), (0, cosineSim [1] [1])]
    ∧ selTopStableNeg [cosineSim [1] [1], cosineSim [1] [1]] 3
        = [(0, cosineSim [1] [1]), (1, cosineSim [1] [1])]
    ∧ pySelect [cosineSim [1] [1], cosineSim [1] [1]] 3
        ≠ selTopStableNeg [cosineSim [1] [1], cosineSim [1] [1]] 3 := by
  refine ⟨by simp [computeSims, Except.map], ?_, ?_, ?_⟩
  · simp [pySelect, enumSort, pyLastSlice, List.insertionSort, List.orderedInsert,
      List.enum, List.enumFrom, sndLe]
  · simp [selTopStableNeg, List.insertionSort, List.orderedInsert,
      List.enum, List.enumFrom, keyNg]
  · rw [show pySelect [cosineSim [1] [1], cosineSim [1] [1]] 3
        = [(1, cosineSim [1] [1]), (0, cosineSim [1] [1])] from by
      simp [pySelect, enumSort, pyLastSlice, List.insertionSort, List.orderedInsert,
        List.enum, List.enumFrom, sndLe]]
    rw [show selTopStableNeg [cosineSim [1] [1], cosineSim [1] [1]] 3
        = [(0, cosineSim [1] [1]), (1, cosineSim [1] [1])] from by
      simp [selTopStableNeg, List.insertionSort, List.orderedInsert,
        List.enum, List.enumFrom, keyNg]]
    simp

/-- C2 (amended): in the primary (cosine-similarity) path, for `top_k ≥ 1`,
the pre-filter selection is the `top_k` candidates by descending similarity
with ties broken by **descending** original index — the order obtained by
reversing a stable ascending sort.  (At `top_k = 0` the code selects all
candidates instead of none, because the Python slice `[-0:]` is the whole
list.) -/
theorem c2_primary_selection (qv : List ℚ) (embs : List (List ℚ)) (k : Nat) (sims : List ℝ)
    (hk : 1 ≤ k) (_hsims : computeSims qv embs = .ok sims) :
    pySelect sims k = selTopDesc sims k :=
  pySelect_eq_selTopDesc sims k hk

/-- Witness for the amended C2 at a concrete input. -/
theorem c2_primary_selection_witness :
    (1 ≤ 3 ∧ computeSims [1] [[1]] = .ok [cosineSim [1] [1]])
    ∧ pySelect [cosineSim [1] [1]] 3 = selTopDesc [cosineSim [1] [1]] 3 :=
  ⟨⟨by decide, computeSims_unit⟩,
    c2_primary_selection [1] [[1]] 3 [cosineSim [1] [1]] (by decide) computeSims_unit⟩

/-! ### Claim C3 -/

/-- C3 counterexample: at `top_k = 0` the primary path returns one hit
(`[-0:]` slices the whole list), so the result length is not bounded by
`top_k`. -/
theorem c3_counterexample :
    ¬ ((find_relevant_chunks "q" [1] ["a"] [[1]] 0).length ≤ 0) := by
  unfold find_relevant_chunks primaryRank
  rw [computeSims_unit, cosineSim_unit]
  simp [pySelect, enumSort, pyLastSlice, List.insertionSort, List.orderedInsert,
    List.enum, List.enumFrom, buildHits, Except.map]
  norm_num

/-- C3 (amended): for `top_k ≥ 1`, whichever of the two algorithms ran, the
returned hit list is sorted by non-increasing relevance score, has length at
most `top_k`, every returned score is strictly positive (the fallback
discard threshold), and when the primary path ran every returned score
exceeds 0.1.  (At `top_k = 0` the primary path ignores the bound, see the
counterexample.) -/
theorem c3_ranker_bounds (query : String) (qv : List ℚ) (chunks : List String)
    (embs : List (List ℚ)) (k : Nat) (hk : 1 ≤ k) :
    (find_relevant_chunks query qv chunks embs k).length ≤ k
    ∧ (find_relevant_chunks query qv chunks embs k).Pairwise
        (fun a b => b.relevance_score ≤ a.relevance_score)
    ∧ (∀ h ∈ find_relevant_chunks query qv chunks embs k, 0 < h.relevance_score)
    ∧ (∀ r, primaryRank qv chunks embs k = .ok r →
        ∀ h ∈ r, (1:ℝ)/10 < h.relevance_score) := by
  cases hp : primaryRank qv chunks embs k with
  | ok r =>
    have hfrc : find_relevant_chunks query qv chunks embs k = r := by
      unfold find_relevant_chunks
      rw [hp]
    obtain ⟨hhits, hpair, hlen⟩ := primaryRank_hits hp
    rw [hfrc]
    refine ⟨hlen hk, hpair, ?_, ?_⟩
    · intro h hm
      exact lt_trans (by norm_num) (hhits h hm).1
    · intro r2 hr2
      cases hr2
      intro h hm
      exact (hhits h hm).1
  | error e =>
    have hfrc : find_relevant_chunks query qv chunks embs k
        = simple_keyword_search query chunks k := by
      unfold find_relevant_chunks
      rw [hp]
    rw [hfrc]
    refine ⟨simple_keyword_length query chunks k, simple_keyword_pairwise query chunks k, ?_, ?_⟩
    · intro h hm
      exact (simple_keyword_mem query chunks k h hm).2.2.2
    · intro r2 hr2
      cases hr2

/-- Witness for the amended C3 at a concrete input. -/
theorem c3_ranker_bounds_witness :
    1 ≤ 3
    ∧ ((find_relevant_chunks "q" [1] ["a"] [[1]] 3).length ≤ 3
    ∧ (find_relevant_chunks "q" [1] ["a"] [[1]] 3).Pairwise
        (fun a b => b.relevance_score ≤ a.relevance_score)
    ∧ (∀ h ∈ find_relevant_chunks "q" [1] ["a"] [[1]] 3, 0 < h.relevance_score)
    ∧ (∀ r, primaryRank [1] ["a"] [[1]] 3 = .ok r →
        ∀ h ∈ r, (1:ℝ)/10 < h.relevance_score)) :=
  ⟨by decide, c3_ranker_bounds "q" [1] ["a"] [[1]] 3 (by decide)⟩

/-! ### Claim C4 -/

/-- C4: every hit returned by the fallback keyword search carries the
token-overlap score (distinct lowercase query words ∩ distinct lowercase
chunk words over distinct query words) of the chunk at its index; every
per-chunk score is 0 when the query has no words, in which case the search
returns no hits at all (and, the guard being taken, no division is
performed). -/
theorem c4_fallback_scores (query : String) (chunks : List String) (k : Nat) :
    (∀ h ∈ simple_keyword_search query chunks k,
        h.relevance_score =
          (((((pySplit query.toLower).toFinset
              ∩ (pySplit (chunks.getD h.chunk_index "").toLower).toFinset).card : ℚ) : ℝ)
            / (((pySplit query.toLower).toFinset.card : ℚ) : ℝ)))
    ∧ ((pySplit query.toLower).toFinset = ∅ →
        (∀ chunk, keywordScore (pySplit query.toLower).toFinset chunk = 0)
        ∧ simple_keyword_search query chunks k = []) := by
  constructor
  · intro h hm
    have hscore := (simple_keyword_mem query chunks k h hm).2.2.1
    by_cases hq : (pySplit query.toLower).toFinset = ∅
    · rw [simple_keyword_empty_query query chunks k hq] at hm
      simp at hm
    · rw [hscore]
      unfold keywordScore
      rw [if_neg hq]
      push_cast
      rfl
  · intro hq
    refine ⟨?_, simple_keyword_empty_query query chunks k hq⟩
    intro chunk
    simp [keywordScore, hq]

/-- Witness for C4 at a concrete input. -/
theorem c4_fallback_scores_witness :
    (∀ h ∈ simple_keyword_search "a" ["a b"] 3,
        h.relevance_score =
          (((((pySplit ("a" : String).toLower).toFinset
              ∩ (pySplit (["a b"].getD h.chunk_index "").toLower).toFinset).card : ℚ) : ℝ)
            / (((pySplit ("a" : String).toLower).toFinset.card : ℚ) : ℝ)))
    ∧ ((pySplit ("a" : String).toLower).toFinset = ∅ →
        (∀ chunk, keywordScore (pySplit ("a" : String).toLower).toFinset chunk = 0)
        ∧ simple_keyword_search "a" ["a b"] 3 = []) :=
  c4_fallback_scores "a" ["a b"] 3

/-! ### Claim C10 -/

/-- C10: every hit returned by the ranker, on both the primary and the
fallback path, has a chunk index that is a valid position in the given chunk
list and a content field equal to the chunk stored at that position. -/
theorem c10_hit_consistency (query : String) (qv : List ℚ) (chunks : List String)
    (embs : List (List ℚ)) (k : Nat) :
    ∀ h ∈ find_relevant_chunks query qv chunks embs k,
      h.chunk_index < chunks.length ∧ h.content = chunks.getD h.chunk_index "" := by
  intro h hm
  cases hp : primaryRank qv chunks embs k with
  | ok r =>
    have hfrc : find_relevant_chunks query qv chunks embs k = r := by
      unfold find_relevant_chunks
      rw [hp]
    rw [hfrc] at hm
    obtain ⟨hhits, -, -⟩ := primaryRank_hits hp
    exact ⟨(hhits h hm).2.1, (hhits h hm).2.2⟩
  | error e =>
    have hfrc : find_relevant_chunks query qv chunks embs k
        = simple_keyword_search query chunks k := by
      unfold find_relevant_chunks
      rw [hp]
    rw [hfrc] at hm
    obtain ⟨h1, h2, -, -⟩ := simple_keyword_mem query chunks k h hm
    exact ⟨h1, h2⟩

/-- Witness for C10 at a concrete input with a concrete returned hit. -/
theorem c10_hit_consistency_witness :
    (0:Nat) < (["a"] : List String).length
    ∧ "a" = (["a"] : List String).getD 0 "" := by
  have hmem : (⟨0, "a", (1:ℝ)⟩ : RHit) ∈ find_relevant_chunks "q" [1] ["a"] [[1]] 3 := by
    rw [frc_unit_eval]
    exact List.mem_singleton.mpr rfl
  exact c10_hit_consistency "q" [1] ["a"] [[1]] 3 ⟨0, "a", (1:ℝ)⟩ hmem

/-! ### Claim C5 -/

/-- C5: the orchestrator ranks every document independently with `top_k = 3`,
tags each hit with its document's filename, merges the hits, returns them
sorted by non-increasing relevance score, and never returns more than 5 hits
regardless of the number of documents. -/
theorem c5_orchestrator (question : String) (qv : List ℚ) (docs : List ContentDoc) :
    (topChunks question qv docs).length ≤ 5
    ∧ (topChunks question qv docs).Pairwise
        (fun a b => b.relevance_score ≤ a.relevance_score)
    ∧ ∀ h ∈ topChunks question qv docs, ∃ d ∈ docs,
        h.filename = d.filename
        ∧ (⟨h.chunk_index, h.content, h.relevance_score⟩ : RHit)
            ∈ find_relevant_chunks question qv d.chunks d.embeddings 3 := by
  refine ⟨?_, ?_, ?_⟩
  · unfold topChunks
    rw [List.length_take]
    exact min_le_left 5 _
  · unfold topChunks
    refine List.Pairwise.imp ?_ (List.Pairwise.sublist (List.take_sublist 5 _)
      (List.sorted_insertionSort hitGe _))
    intro a b hab
    exact hab
  · intro h hm
    unfold topChunks at hm
    have hall : h ∈ allRelevantChunks question qv docs :=
      (List.perm_insertionSort hitGe _).subset (List.mem_of_mem_take hm)
    unfold allRelevantChunks at hall
    rw [List.mem_flatten] at hall
    obtain ⟨l, hl, hhl⟩ := hall
    rw [List.mem_map] at hl
    obtain ⟨d, hd, rfl⟩ := hl
    rw [List.mem_map] at hhl
    obtain ⟨h0, hh0, rfl⟩ := hhl
    exact ⟨d, hd, rfl, hh0⟩

/-- Witness for C5 at a concrete input. -/
theorem c5_orchestrator_witness :
    (topChunks "q" [1] [⟨"f", ["a"], [[1]]⟩]).length ≤ 5
    ∧ (topChunks "q" [1] [⟨"f", ["a"], [[1]]⟩]).Pairwise
        (fun a b => b.relevance_score ≤ a.relevance_score)
    ∧ ∀ h ∈ topChunks "q" [1] [⟨"f", ["a"], [[1]]⟩],
        ∃ d ∈ ([⟨"f", ["a"], [[1]]⟩] : List ContentDoc),
        h.filename = d.filename
        ∧ (⟨h.chunk_index, h.content, h.relevance_score⟩ : RHit)
            ∈ find_relevant_chunks "q" [1] d.chunks d.embeddings 3 :=
  c5_orchestrator "q" [1] [⟨"f", ["a"], [[1]]⟩]

/-! ### Claim C6 -/

/-- C6: the query operation fails exactly when the user has no documents;
with documents present but no relevant hits anywhere it succeeds with the
fixed no-information answer and an empty sources list. -/
theorem c6_query_error_iff (llm : String → Except String String) (docs : List ContentDoc)
    (question : String) (qv : List ℚ) :
    ((∃ e, (query_documents llm docs question qv).1 = .error e) ↔ docs = [])
    ∧ (docs ≠ [] → allRelevantChunks question qv docs = [] →
        (query_documents llm docs question qv).1 = .ok ⟨noInfoMsg, []⟩) := by
  constructor
  · constructor
    · rintro ⟨e, he⟩
      by_contra hne
      simp only [query_documents] at he
      rw [if_neg (by simpa [List.isEmpty_iff] using hne)] at he
      split at he <;> simp at he
    · intro hd
      subst hd
      exact ⟨noDocsMsg, rfl⟩
  · intro hd hall
    simp only [query_documents]
    rw [if_neg (by simpa [List.isEmpty_iff] using hd), hall]
    rfl

/-- Witness for C6 at a concrete input. -/
theorem c6_query_error_iff_witness :
    ∃ e, (query_documents (fun _ => .ok "a") [] "q" []).1 = .error e :=
  (c6_query_error_iff (fun _ => .ok "a") [] "q" []).1.mpr rfl

/-! ### Claim C9 -/

/-- C9: when the user has documents and some hit was found, a failing
completion call does not propagate: the query returns a success whose answer
is the textual error string and whose sources are still the merged top hits;
moreover every query sends at most one prompt to the completion service. -/
theorem c9_completion_failure (llm : String → Except String String) (docs : List ContentDoc)
    (question : String) (qv : List ℚ) (e : String)
    (hd : docs ≠ []) (hall : allRelevantChunks question qv docs ≠ [])
    (hllm : ∀ p, llm p = .error e) :
    (query_documents llm docs question qv).1
      = .ok ⟨"Error generating response: " ++ e,
          (topChunks question qv docs).map
            (fun c => ⟨c.filename, c.chunk_index, c.relevance_score⟩)⟩
    ∧ (query_documents llm docs question qv).2
        = [mkPrompt (String.intercalate "\n\n"
            ((topChunks question qv docs).map TaggedHit.content)) question]
    ∧ (∀ llm2 docs2 q2 qv2,
        ((query_documents llm2 docs2 q2 qv2 :
            Except String QueryResponse × List String).2).length ≤ 1) := by
  refine ⟨?_, ?_, ?_⟩
  · simp only [query_documents]
    rw [if_neg (by simpa [List.isEmpty_iff] using hd),
      if_neg (by simpa [List.isEmpty_iff] using hall), hllm]
  · simp only [query_documents]
    rw [if_neg (by simpa [List.isEmpty_iff] using hd),
      if_neg (by simpa [List.isEmpty_iff] using hall)]
  · intro llm2 docs2 q2 qv2
    by_cases h1 : docs2.isEmpty
    · simp [query_documents, h1]
    · by_cases h2 : (allRelevantChunks q2 qv2 docs2).isEmpty
      · simp [query_documents, h1, h2]
      · simp [query_documents, h1, h2]

theorem allRel_unit_eval :
    allRelevantChunks "q" [1] [⟨"f", ["a"], [[1]]⟩] = [⟨"f", 0, "a", (1:ℝ)⟩] := by
  simp only [allRelevantChunks, List.map_cons, List.map_nil]
  rw [frc_unit_eval]
  rfl

/-- Witness for C9 at a concrete input. -/
theorem c9_completion_failure_witness :
    ([⟨"f", ["a"], [[1]]⟩] : List ContentDoc) ≠ []
    ∧ allRelevantChunks "q" [1] [⟨"f", ["a"], [[1]]⟩] ≠ []
    ∧ (query_documents (fun _ => .error "boom") [⟨"f", ["a"], [[1]]⟩] "q" [1]).1
        = .ok ⟨"Error generating response: " ++ "boom",
            (topChunks "q" [1] [⟨"f", ["a"], [[1]]⟩]).map
              (fun c => ⟨c.filename, c.chunk_index, c.relevance_score⟩)⟩ := by
  have hall : allRelevantChunks "q" [1] [⟨"f", ["a"], [[1]]⟩] ≠ [] := by
    rw [allRel_unit_eval]
    simp
  exact ⟨by simp, hall,
    (c9_completion_failure (fun _ => .error "boom") [⟨"f", ["a"], [[1]]⟩] "q" [1] "boom"
      (by simp) hall (fun _ => rfl)).1⟩

/-! ### Claim C7 -/

theorem mapTransform_ok_lengths {μ : Type} (V : Vectorizer μ) (m : μ) :
    ∀ ts vs, mapTransform V m ts = .ok vs →
      (∀ m2 s v, V.transform m2 s = .ok v → v.length = V.dim m2) →
      ∀ v ∈ vs, v.length = V.dim m := by
  intro ts
  induction ts with
  | nil =>
    intro vs hvs _ v hv
    rw [mapTransform] at hvs
    cases hvs
    simp at hv
  | cons t ts ih =>
    intro vs hvs hdim v hv
    rw [mapTransform] at hvs
    split at hvs
    · rename_i v0 hv0
      cases hmt : mapTransform V m ts with
      | ok vs0 =>
        rw [hmt] at hvs
        simp only [Except.map, Except.ok.injEq] at hvs
        subst hvs
        rcases List.mem_cons.mp hv with h | h
        · subst h
          exact hdim m t v hv0
        · exact ih vs0 hmt hdim v h
      | error e2 =>
        rw [hmt] at hvs
        simp only [Except.map] at hvs
        cases hvs
    · cases hvs

/-- C7: once fitted (state `some m`), neither `get_embeddings_tfidf` nor
`get_query_embedding` refits or changes the fitted state; transforming the
same text twice in sequence yields identical output; and every vector
produced from the fitted space (a successful transform) has the fitted
dimensionality. -/
theorem c7_vectorizer_frozen {μ : Type} (V : Vectorizer μ) (m : μ)
    (texts : List String) (t query : String)
    (hdim : ∀ m2 s v, V.transform m2 s = .ok v → v.length = V.dim m2) :
    (get_embeddings_tfidf V (some m) texts).1 = some m
    ∧ (get_embeddings_tfidf V (get_embeddings_tfidf V (some m) [t]).1 [t]).2
        = (get_embeddings_tfidf V (some m) [t]).2
    ∧ (∀ v, get_query_embedding V (some m) query = .ok v → v.length = V.dim m)
    ∧ (∀ vs, mapTransform V m texts = .ok vs →
        (get_embeddings_tfidf V (some m) texts).2 = vs
        ∧ ∀ v ∈ vs, v.length = V.dim m) := by
  refine ⟨rfl, rfl, ?_, ?_⟩
  · intro v hv
    exact hdim m query v hv
  · intro vs hvs
    refine ⟨?_, mapTransform_ok_lengths V m texts vs hvs hdim⟩
    simp only [get_embeddings_tfidf]
    rw [hvs]

/-- Witness for C7 at a concrete vectorizer. -/
theorem c7_vectorizer_frozen_witness :
    (get_embeddings_tfidf unitVectorizer (some ()) ["x"]).1 = some ()
    ∧ (get_embeddings_tfidf unitVectorizer
        (get_embeddings_tfidf unitVectorizer (some ()) ["x"]).1 ["x"]).2
        = (get_embeddings_tfidf unitVectorizer (some ()) ["x"]).2
    ∧ (∀ v, get_query_embedding unitVectorizer (some ()) "y" = .ok v
        → v.length = unitVectorizer.dim ())
    ∧ (∀ vs, mapTransform unitVectorizer () ["x"] = .ok vs →
        (get_embeddings_tfidf unitVectorizer (some ()) ["x"]).2 = vs
        ∧ ∀ v ∈ vs, v.length = unitVectorizer.dim ()) :=
  c7_vectorizer_frozen unitVectorizer () ["x"] "x" "y"
    (fun _ _ v hv => by cases hv; rfl)

/-! ### Claim C8 -/

theorem decodeStrings_encode (cs : List String) : decodeStrings (cs.map .str) = some cs := by
  induction cs with
  | nil => rfl
  | cons c cs ih =>
    rw [List.map_cons, decodeStrings, ih]
    rfl

theorem decodeChunks_encodeChunks (cs : List String) :
    decodeChunks (encodeChunks cs) = some cs := by
  rw [encodeChunks, decodeChunks]
  exact decodeStrings_encode cs

theorem decodeNums_encode (v : List ℚ) : decodeNums (v.map .num) = some v := by
  induction v with
  | nil => rfl
  | cons x v ih =>
    rw [List.map_cons, decodeNums, ih]
    rfl

theorem decodeVecs_encode (es : List (List ℚ)) :
    decodeVecs (es.map (fun v => .arr (v.map .num))) = some es := by
  induction es with
  | nil => rfl
  | cons v es ih =>
    rw [List.map_cons, decodeVecs, decodeNums_encode, ih]
    rfl

theorem decodeEmbeddings_encodeEmbeddings (es : List (List ℚ)) :
    decodeEmbeddings (encodeEmbeddings es) = some es := by
  rw [encodeEmbeddings, decodeEmbeddings]
  exact decodeVecs_encode es

/-- C8: storing a document with `create_document` (which serializes the
chunk and embedding lists) and reading it back with
`get_user_documents_with_content` (which deserializes them) reproduces the
original chunk strings and embedding vectors exactly. -/
theorem c8_roundtrip (db : List DocRow) (d : DocRecord)
    (hfresh : ∀ r ∈ db, r.id ≠ d.id) :
    (create_document db d).2 = true
    ∧ get_user_documents_with_content (create_document db d).1 d.user_id
      = get_user_documents_with_content db d.user_id
        ++ [⟨d.id, d.filename, d.content, some d.chunks, some d.embeddings⟩] := by
  have hany : db.any (fun r => r.id == d.id) = false := by
    rw [List.any_eq_false]
    intro r hr
    simpa using hfresh r hr
  constructor
  · simp [create_document, hany]
  · simp only [create_document, hany, Bool.false_eq_true, if_false]
    simp only [get_user_documents_with_content, List.filter_append, List.map_append]
    congr 1
    simp [List.filter_cons, decodeChunks_encodeChunks, decodeEmbeddings_encodeEmbeddings]

/-- Witness for C8 at a concrete document and empty store. -/
theorem c8_roundtrip_witness :
    (create_document [] ⟨"i", "u", "f", "c", ["ch"], [[1]], "t", 1, "completed"⟩).2 = true
    ∧ get_user_documents_with_content
        (create_document [] ⟨"i", "u", "f", "c", ["ch"], [[1]], "t", 1, "completed"⟩).1 "u"
      = get_user_documents_with_content [] "u"
        ++ [⟨"i", "f", "c", some ["ch"], some [[1]]⟩] :=
  c8_roundtrip [] ⟨"i", "u", "f", "c", ["ch"], [[1]], "t", 1, "completed"⟩ (by simp)

end AskMyDocs
